import Mathlib

/-!
Shallow embedding of the railgun-reloaded merkletree-manager repository.

The hash primitive (`poseidonFunc`) and the byte utilities are external
collaborators of the repository (its spec places them out of scope), so node
values are modelled as a free term algebra `Hash`: a raw byte array is
identified by its big-integer value (`Hash.val`), the two-input Poseidon
combine is the free constructor `Hash.node`, and the JavaScript `undefined`
that can flow out of sparse array reads is the explicit value `Hash.undef`.
Equality of `Hash` terms models byte-exact equality of the corresponding
byte arrays; an equation proved in the free algebra holds for every
interpretation of the hash primitive, and a disequation holds for every
collision-free interpretation.
-/

inductive Hash where
  | undef : Hash
  | val : Nat → Hash
  | node : Hash → Hash → Hash
deriving DecidableEq

/-- The JavaScript nullish-coalescing operator `x ?? y` as it acts on tree
node reads: an out-of-range or missing entry is `Hash.undef`. -/
def fallback (x y : Hash) : Hash :=
  if x = Hash.undef then y else x

/-- `constants.ts`: `zeroValueBigInt()` is keccak256 of the string Railgun
reduced mod the SNARK scalar field; keccak is an external primitive, so the
constant is imported as the literal value recorded by the repository's own
test vector for `zeros[0]`. -/
def ZERO_HASH_BIGINT : Nat :=
  0x0488f89b25bc7011eaf6a5edce71aeafb9fe706faa3c0a5cd9cbe868ae3b9ffc

/-- `MerkleTree.zeroValue`: the domain zero leaf. -/
def zeroValue : Hash := Hash.val ZERO_HASH_BIGINT

/-- `MerkleTree.hashLeftRight`: the two-input hash combine (free constructor;
the 32-byte padding the source applies to each operand is invisible because a
raw value is identified by its big-integer value). -/
def hashLeftRight (left right : Hash) : Hash := Hash.node left right

/-- Zero value at a given level: level 0 is the zero leaf, level `i+1` the
self-hash of level `i`. -/
def zeroLevel : Nat → Hash
  | 0 => zeroValue
  | n + 1 => hashLeftRight (zeroLevel n) (zeroLevel n)

/-- `MerkleTree.getZeroValueLevels`: the zero value for each of the `depth`
levels, index 0 the zero leaf, index `i` the self-hash of index `i - 1`. -/
def getZeroValueLevels (depth : Nat) : List Hash :=
  (List.range depth).map zeroLevel

/-- `MerkleProof` from `merkletree.ts`. -/
structure MerkleProof where
  element : Hash
  elements : List Hash
  indices : Nat
  root : Hash
deriving DecidableEq

/-- `MerkleTree` from `merkletree.ts`: `tree` is the per-level node storage,
level 0 the leaves, level `depth` the root. -/
structure MerkleTree where
  treeNumber : Nat
  depth : Nat
  zeros : List Hash
  tree : List (List Hash)
deriving DecidableEq

/-- The `root` getter: `this.tree[this.depth][0]`. -/
def MerkleTree.root (t : MerkleTree) : Hash :=
  (t.tree.getD t.depth []).getD 0 Hash.undef

/-- The `length` getter: `this.tree[0].length`. -/
def MerkleTree.length (t : MerkleTree) : Nat :=
  (t.tree.getD 0 []).length

/-- `MerkleTree.createTree`: zeros for every level, empty interior levels,
and `tree[depth]` seeded from `fromTree?.root ?? hashLeftRight(zeros[depth-1],
zeros[depth-1])`. -/
def MerkleTree.createTree (treeNumber depth : Nat) (fromTree : Option MerkleTree) :
    MerkleTree :=
  let zeros := getZeroValueLevels depth
  let zeroRoot := hashLeftRight (zeros.getD (depth - 1) Hash.undef)
    (zeros.getD (depth - 1) Hash.undef)
  let seeded : Hash :=
    match fromTree with
    | some ft => fallback ft.root zeroRoot
    | none => zeroRoot
  { treeNumber := treeNumber, depth := depth, zeros := zeros,
    tree := List.replicate depth [] ++ [[seeded]] }

/-- A single JavaScript array element assignment `a[p] = v`: writing past the
end extends the array, the skipped positions reading as `undefined`. -/
def writeAt (l : List Hash) (p : Nat) (v : Hash) : List Hash :=
  if p < l.length then l.set p v
  else l ++ List.replicate (p - l.length) Hash.undef ++ [v]

/-- The `leaves.forEach((leaf, index) => tree[0][startPosition + index] = leaf)`
loop of `MerkleTree.insertLeaves`. -/
def writeLeaves (l : List Hash) (start : Nat) : List Hash → List Hash
  | [] => l
  | leaf :: rest => writeLeaves (writeAt l start leaf) (start + 1) rest

/-- `MerkleTree.insertLeaves`: no-op on an empty batch, otherwise writes
`leaves[i]` into `tree[0][startPosition + i]`; interior levels untouched. -/
def MerkleTree.insertLeaves (t : MerkleTree) (leaves : List Hash)
    (startPosition : Nat) : MerkleTree :=
  if leaves = [] then t
  else { t with tree := t.tree.set 0 (writeLeaves (t.tree.getD 0 []) startPosition leaves) }

/-- One level of `rebuildSparseTree`: hash consecutive pairs, an odd final
element pairing with the level's zero value (`tree[level][pos+1] ?? zeros[level]`). -/
def hashLevel (zero : Hash) : List Hash → List Hash
  | [] => []
  | [a] => [hashLeftRight a zero]
  | a :: b :: rest => hashLeftRight a (fallback b zero) :: hashLevel zero rest

/-- The levels `rebuildSparseTree` leaves in place: level 0 unchanged, level
`l + 1` recomputed from level `l` with `zeros[l]`. -/
def buildLevels (zeros : List Hash) : Nat → List Hash → List (List Hash)
  | 0, cur => [cur]
  | d + 1, cur =>
      cur :: buildLevels (zeros.drop 1) d (hashLevel (zeros.headD Hash.undef) cur)

/-- `MerkleTree.rebuildSparseTree` ("finalize"): recompute every interior
level from the current leaf level. -/
def MerkleTree.rebuildSparseTree (t : MerkleTree) : MerkleTree :=
  { t with tree := buildLevels t.zeros t.depth (t.tree.getD 0 []) }

/-- The level walk of `generateProof`: at each level record the sibling — on
an even index `tree[level][index+1] ?? zeros[level]`, on an odd index
`tree[level][index-1]` with no fallback — then halve the index. -/
def MerkleTree.proofElements (t : MerkleTree) (level index : Nat) : Nat → List Hash
  | 0 => []
  | f + 1 =>
    let lvl := t.tree.getD level []
    let e :=
      if index % 2 = 0 then
        fallback (lvl.getD (index + 1) Hash.undef) (t.zeros.getD level Hash.undef)
      else lvl.getD (index - 1) Hash.undef
    e :: t.proofElements (level + 1) (index / 2) f

/-- `MerkleTree.generateProof`: locate the element in the leaf level by value
(first match, throwing when absent), walk the levels recording siblings, and
capture the original index and the current root. -/
def MerkleTree.generateProof (t : MerkleTree) (element : Hash) :
    Except String MerkleProof :=
  match (t.tree.getD 0 []).findIdx? (fun leaf => leaf = element) with
  | none => Except.error "element not found in the MerkleTree"
  | some initialIndex =>
      Except.ok { element := element,
                  elements := t.proofElements 0 initialIndex t.depth,
                  indices := initialIndex,
                  root := t.root }

/-- `MerkleTree.validateProof` (static): fold over the proof elements,
placing the running hash on the right when `indices & 2^index` is positive,
and compare the outcome byte-exactly against `proof.root`. -/
def MerkleTree.validateProof (proof : MerkleProof) : Bool :=
  let calculatedRoot :=
    proof.elements.enum.foldl
      (fun current ie =>
        if 0 < proof.indices &&& 2 ^ ie.1 then hashLeftRight ie.2 current
        else hashLeftRight current ie.2)
      proof.element
  decide (proof.root = calculatedRoot)

/-- `MerkleHelper` from `helper.ts`: the rolling multi-tree pool. -/
structure MerkleHelper where
  trees : List MerkleTree
  currentTreeIndex : Nat
  maxLeaves : Nat
  treeDepth : Nat
deriving DecidableEq

/-- The `MerkleHelper` constructor: one fresh tree, capacity `2 ^ treeDepth`. -/
def MerkleHelper.new (treeDepth : Nat) : MerkleHelper :=
  { trees := [MerkleTree.createTree 0 treeDepth none],
    currentTreeIndex := 0,
    maxLeaves := 2 ^ treeDepth,
    treeDepth := treeDepth }

/-- The `currentTree` getter, throwing when the index is out of range. -/
def MerkleHelper.currentTree (h : MerkleHelper) : Except String MerkleTree :=
  match h.trees.get? h.currentTreeIndex with
  | none => Except.error "Current tree is undefined"
  | some t => Except.ok t

/-- In-place mutation of the current tree object, as seen through the pool. -/
def MerkleHelper.setCurrentTree (h : MerkleHelper) (t : MerkleTree) : MerkleHelper :=
  { h with trees := h.trees.set h.currentTreeIndex t }

/-- `MerkleHelper.finalizeTree`: rebuild the sparse representation of the
current tree only. -/
def MerkleHelper.finalizeTree (h : MerkleHelper) : Except String MerkleHelper :=
  match h.trees.get? h.currentTreeIndex with
  | none => Except.error "Current tree is undefined"
  | some t => Except.ok (h.setCurrentTree t.rebuildSparseTree)

/-- `MerkleHelper.createNextTree`: append a tree numbered `trees.length`,
seeded from the current tree, and make it current. -/
def MerkleHelper.createNextTree (h : MerkleHelper) : Except String MerkleHelper :=
  match h.trees.get? h.currentTreeIndex with
  | none => Except.error "Current tree is undefined"
  | some cur =>
      let nextTreeNumber := h.trees.length
      let newTree := MerkleTree.createTree nextTreeNumber h.treeDepth (some cur)
      Except.ok { h with trees := h.trees ++ [newTree], currentTreeIndex := nextTreeNumber }

/-- `MerkleHelper.insertLeaves`: an empty batch returns the current index at
once; otherwise the start position is validated against `[0, maxLeaves)` and
against the current tree's leaf count, then the batch goes into the current
tree, spilling into a freshly created tree when it overflows capacity. -/
def MerkleHelper.insertLeaves (h : MerkleHelper) (leaves : List Hash)
    (startPosition : Int) : Except String (MerkleHelper × Nat) :=
  if leaves = [] then Except.ok (h, h.currentTreeIndex)
  else if startPosition < 0 ∨ (h.maxLeaves : Int) ≤ startPosition then
    Except.error "Invalid start position"
  else
    match h.trees.get? h.currentTreeIndex with
    | none => Except.error "Current tree is undefined"
    | some cur =>
      if startPosition ≠ (cur.length : Int) then
        Except.error "Start position does not match current tree length"
      else if h.maxLeaves < cur.length + leaves.length then
        let remainingLeaves := h.maxLeaves - cur.length
        let h1 :=
          if 0 < remainingLeaves then
            h.setCurrentTree (cur.insertLeaves (leaves.take remainingLeaves) startPosition.toNat)
          else h
        let newLeaves := leaves.drop remainingLeaves
        match h1.finalizeTree with
        | Except.error e => Except.error e
        | Except.ok h2 =>
          match h2.createNextTree with
          | Except.error e => Except.error e
          | Except.ok h3 =>
            match h3.trees.get? h3.currentTreeIndex with
            | none => Except.error "Current tree is undefined"
            | some cur2 =>
                Except.ok (h3.setCurrentTree (cur2.insertLeaves newLeaves 0),
                  h3.currentTreeIndex)
      else
        Except.ok (h.setCurrentTree (cur.insertLeaves leaves startPosition.toNat),
          h.currentTreeIndex)

/-- `MerkleHelper.generateProof`: a specified in-range tree index delegates to
that tree alone; otherwise every tree is probed oldest first and the first
success is returned with its index. -/
def MerkleHelper.generateProof (h : MerkleHelper) (element : Hash)
    (treeIndex : Option Nat) : Except String (MerkleProof × Nat) :=
  let scan : Except String (MerkleProof × Nat) :=
    (h.trees.enum.findSome? (fun it =>
      match it.2.generateProof element with
      | Except.ok proof => some (proof, it.1)
      | Except.error _ => none)).elim
      (Except.error "Element not found in any tree") Except.ok
  match treeIndex with
  | some ti =>
      match h.trees.get? ti with
      | some t =>
          match t.generateProof element with
          | Except.ok proof => Except.ok (proof, ti)
          | Except.error e => Except.error e
      | none => scan
  | none => scan

/-- `MerkleManager` from `manager.ts`: two independent pools plus the
nullifier set (a JavaScript `Set` kept in insertion order). -/
structure MerkleManager where
  utxo : MerkleHelper
  txid : MerkleHelper
  nullifiers : List String
deriving DecidableEq

/-- The `MerkleManager` constructor. -/
def MerkleManager.new (treeDepth : Nat) : MerkleManager :=
  { utxo := MerkleHelper.new treeDepth,
    txid := MerkleHelper.new treeDepth,
    nullifiers := [] }

/-- `MerkleManager.checkNullifier`: pure membership test. -/
def MerkleManager.checkNullifier (m : MerkleManager) (nullifier : String) : Bool :=
  m.nullifiers.contains nullifier

/-- `MerkleManager.insertNullifier`: reject a duplicate, otherwise add. -/
def MerkleManager.insertNullifier (m : MerkleManager) (nullifier : String) :
    Except String MerkleManager :=
  if m.nullifiers.contains nullifier then Except.error "Nullifier already exists"
  else Except.ok { m with nullifiers := m.nullifiers ++ [nullifier] }

deriving instance DecidableEq for Except

/-!
### Verification helpers

Recursive forms of the folds and loops above, used to reason by induction;
each is proved equal to the corresponding operational definition.
-/

/-- The fold of `validateProof` unrolled, tracking the absolute bit index. -/
def combineFrom (indices : Nat) (k : Nat) : List Hash → Hash → Hash
  | [], current => current
  | e :: rest, current =>
      combineFrom indices (k + 1) rest
        (if 0 < indices &&& 2 ^ k then hashLeftRight e current
         else hashLeftRight current e)

/-- The level walk of `generateProof` expressed over the level contents the
rebuilt tree stores, carrying the remaining zero chain. -/
def pathElems (zeros : List Hash) (lvl : List Hash) (index : Nat) : Nat → List Hash
  | 0 => []
  | f + 1 =>
    let e :=
      if index % 2 = 0 then
        fallback (lvl.getD (index + 1) Hash.undef) (zeros.headD Hash.undef)
      else lvl.getD (index - 1) Hash.undef
    e :: pathElems (zeros.drop 1) (hashLevel (zeros.headD Hash.undef) lvl)
      (index / 2) f

/-- Iterated `hashLevel`: the content of level `d` of the rebuilt tree. -/
def lastLevel (zeros : List Hash) : Nat → List Hash → List Hash
  | 0, cur => cur
  | d + 1, cur => lastLevel (zeros.drop 1) d (hashLevel (zeros.headD Hash.undef) cur)

theorem hashLevel_length (z : Hash) :
    (L : List Hash) → (hashLevel z L).length = (L.length + 1) / 2
  | [] => by simp [hashLevel]
  | [a] => by simp [hashLevel]
  | a :: b :: rest => by
      simp only [hashLevel, List.length_cons, hashLevel_length z rest]
      omega

theorem hashLevel_getD (z : Hash) :
    (L : List Hash) → (j : Nat) → j < (L.length + 1) / 2 →
      (hashLevel z L).getD j Hash.undef =
        hashLeftRight (L.getD (2 * j) Hash.undef)
          (fallback (L.getD (2 * j + 1) Hash.undef) z)
  | [], j, hj => by simp at hj
  | [a], j, hj => by
      have : j = 0 := by simpa using hj
      subst this
      simp [hashLevel, fallback]
  | a :: b :: rest, 0, _ => by simp [hashLevel]
  | a :: b :: rest, j + 1, hj => by
      have h2 : 2 * (j + 1) = 2 * j + 1 + 1 := by omega
      have h3 : 2 * (j + 1) + 1 = (2 * j + 1) + 1 + 1 := by omega
      simp only [hashLevel, List.getD_cons_succ, h2, h3]
      exact hashLevel_getD z rest j (by simp at hj; omega)

theorem hashLevel_ne_undef (z : Hash) :
    (L : List Hash) → ∀ x ∈ hashLevel z L, x ≠ Hash.undef
  | [], x, hx => by simp [hashLevel] at hx
  | [a], x, hx => by
      simp [hashLevel, hashLeftRight] at hx
      subst hx; simp
  | a :: b :: rest, x, hx => by
      simp only [hashLevel, List.mem_cons] at hx
      rcases hx with hx | hx
      · subst hx; simp [hashLeftRight]
      · exact hashLevel_ne_undef z rest x hx

theorem hashLevel_ne_nil (z : Hash) (L : List Hash) (h : L ≠ []) :
    hashLevel z L ≠ [] := by
  have hl := hashLevel_length z L
  intro hcontra
  rw [hcontra] at hl
  cases L with
  | nil => exact h rfl
  | cons a t => simp at hl; omega

theorem getD_eq_headD_drop (u : Hash) :
    (zs : List Hash) → (i : Nat) → zs.getD i u = (zs.drop i).headD u
  | [], i => by cases i <;> simp
  | a :: zs, 0 => by simp
  | a :: zs, i + 1 => by
      simp only [List.getD_cons_succ, List.drop_succ_cons]
      exact getD_eq_headD_drop u zs i

theorem lastLevel_succ_top (u : Hash) :
    (l : Nat) → (zs : List Hash) → (L : List Hash) →
      lastLevel zs (l + 1) L =
        hashLevel ((zs.drop l).headD Hash.undef) (lastLevel zs l L)
  | 0, zs, L => by simp [lastLevel]
  | l + 1, zs, L => by
      show lastLevel (zs.drop 1) (l + 1) _ = _
      rw [lastLevel_succ_top u l (zs.drop 1)]
      rw [List.drop_drop, Nat.add_comm 1 l]
      rfl

theorem and_two_pow_pos_iff (n k : Nat) :
    (0 < n &&& 2 ^ k) ↔ (n / 2 ^ k) % 2 = 1 := by
  rw [Nat.and_two_pow, Nat.testBit_to_div_mod]
  by_cases hm : n / 2 ^ k % 2 = 1
  · simp [hm, Nat.two_pow_pos]
  · simp [hm]

theorem buildLevels_getD :
    (d : Nat) → (l : Nat) → (zs : List Hash) → (L : List Hash) → l ≤ d →
      (buildLevels zs d L).getD l [] = lastLevel zs l L
  | 0, 0, zs, L, _ => by simp [buildLevels, lastLevel]
  | 0, l + 1, zs, L, h => by omega
  | d + 1, 0, zs, L, _ => by simp [buildLevels, lastLevel]
  | d + 1, l + 1, zs, L, h => by
      show (buildLevels (zs.drop 1) d _).getD l [] = _
      exact buildLevels_getD d l (zs.drop 1) _ (by omega)

theorem rebuilt_tree_getD (t : MerkleTree) (l : Nat) (h : l ≤ t.depth) :
    t.rebuildSparseTree.tree.getD l [] = lastLevel t.zeros l (t.tree.getD 0 []) :=
  buildLevels_getD t.depth l t.zeros _ h

theorem proofElements_rebuilt (t : MerkleTree) :
    (f : Nat) → (l i : Nat) → l + f ≤ t.depth →
      t.rebuildSparseTree.proofElements l i f =
        pathElems (t.zeros.drop l) (lastLevel t.zeros l (t.tree.getD 0 [])) i f
  | 0, _, _, _ => rfl
  | f + 1, l, i, h => by
      have hz : t.rebuildSparseTree.zeros = t.zeros := rfl
      simp only [MerkleTree.proofElements, pathElems]
      rw [rebuilt_tree_getD t l (by omega), hz,
        getD_eq_headD_drop Hash.undef t.zeros l]
      refine congrArg _ ?_
      rw [proofElements_rebuilt t f (l + 1) (i / 2) (by omega)]
      rw [List.drop_drop, ← lastLevel_succ_top Hash.undef l t.zeros]

theorem validate_foldl (idxs : Nat) :
    (els : List Hash) → (k : Nat) → (cur : Hash) →
      (els.enumFrom k).foldl
        (fun current ie =>
          if 0 < idxs &&& 2 ^ ie.1 then hashLeftRight ie.2 current
          else hashLeftRight current ie.2) cur = combineFrom idxs k els cur
  | [], _, _ => rfl
  | e :: rest, k, cur => by
      simp only [List.enumFrom, List.foldl_cons, combineFrom]
      exact validate_foldl idxs rest (k + 1) _

theorem validateProof_eq_combineFrom (proof : MerkleProof) :
    MerkleTree.validateProof proof =
      decide (proof.root = combineFrom proof.indices 0 proof.elements proof.element) := by
  unfold MerkleTree.validateProof
  rw [show proof.elements.enum = proof.elements.enumFrom 0 from rfl]
  rw [validate_foldl proof.indices proof.elements 0 proof.element]

theorem combineFrom_pathElems (idxs : Nat) :
    (f : Nat) → (zs L : List Hash) → (k : Nat) → (cur : Hash) →
      idxs / 2 ^ k < L.length →
      L.getD (idxs / 2 ^ k) Hash.undef = cur →
      cur ≠ Hash.undef →
      combineFrom idxs k (pathElems zs L (idxs / 2 ^ k) f) cur =
        (lastLevel zs f L).getD (idxs / 2 ^ (k + f)) Hash.undef
  | 0, zs, L, k, cur, _, hget, _ => by
      simpa [pathElems, combineFrom, lastLevel] using hget.symm
  | f + 1, zs, L, k, cur, hlt, hget, hne => by
      have hdiv : idxs / 2 ^ (k + 1) = idxs / 2 ^ k / 2 := by
        rw [Nat.pow_succ, ← Nat.div_div_eq_div_mul]
      have hlen2 : idxs / 2 ^ k / 2 <
          (hashLevel (zs.headD Hash.undef) L).length := by
        rw [hashLevel_length]
        omega
      have hstep : (hashLevel (zs.headD Hash.undef) L).getD
            (idxs / 2 ^ k / 2) Hash.undef =
          (if 0 < idxs &&& 2 ^ k then
            hashLeftRight
              (L.getD (idxs / 2 ^ k - 1) Hash.undef) cur
          else
            hashLeftRight cur
              (fallback (L.getD (idxs / 2 ^ k + 1) Hash.undef)
                (zs.headD Hash.undef))) := by
        rw [hashLevel_getD (zs.headD Hash.undef) L (idxs / 2 ^ k / 2)
          (by rw [← hashLevel_length (zs.headD Hash.undef) L]; exact hlen2)]
        rcases Nat.mod_two_eq_zero_or_one (idxs / 2 ^ k) with hpar | hpar
        · have hbit : ¬ 0 < idxs &&& 2 ^ k := by
            rw [and_two_pow_pos_iff]; omega
          have h2j : 2 * (idxs / 2 ^ k / 2) = idxs / 2 ^ k := by omega
          rw [if_neg hbit, h2j, hget]
        · have hbit : 0 < idxs &&& 2 ^ k := by
            rw [and_two_pow_pos_iff]; exact hpar
          have h2j : 2 * (idxs / 2 ^ k / 2) = idxs / 2 ^ k - 1 := by omega
          have h2j1 : 2 * (idxs / 2 ^ k / 2) + 1 = idxs / 2 ^ k := by omega
          rw [if_pos hbit, h2j1, hget, h2j]
          have : fallback cur (zs.headD Hash.undef) = cur := by
            unfold fallback
            rw [if_neg hne]
          rw [this]
      simp only [pathElems, combineFrom]
      rcases Nat.mod_two_eq_zero_or_one (idxs / 2 ^ k) with hpar | hpar
      · have hbit : ¬ 0 < idxs &&& 2 ^ k := by
          rw [and_two_pow_pos_iff]; omega
        rw [if_pos hpar, if_neg hbit]
        have ih := combineFrom_pathElems idxs f (zs.drop 1)
          (hashLevel (zs.headD Hash.undef) L) (k + 1)
          (hashLeftRight cur
            (fallback (L.getD (idxs / 2 ^ k + 1) Hash.undef)
              (zs.headD Hash.undef)))
          (by rw [hdiv]; exact hlen2)
          (by rw [hdiv, hstep, if_neg hbit])
          (by simp [hashLeftRight])
        rw [hdiv, show k + 1 + f = k + (f + 1) from by omega] at ih
        exact ih
      · have hbit : 0 < idxs &&& 2 ^ k := by
          rw [and_two_pow_pos_iff]; exact hpar
        have hone : ¬ idxs / 2 ^ k % 2 = 0 := by omega
        rw [if_neg hone, if_pos hbit]
        have ih := combineFrom_pathElems idxs f (zs.drop 1)
          (hashLevel (zs.headD Hash.undef) L) (k + 1)
          (hashLeftRight (L.getD (idxs / 2 ^ k - 1) Hash.undef) cur)
          (by rw [hdiv]; exact hlen2)
          (by rw [hdiv, hstep, if_pos hbit])
          (by simp [hashLeftRight])
        rw [hdiv, show k + 1 + f = k + (f + 1) from by omega] at ih
        exact ih

theorem findIdx_eq_of_mem (L : List Hash) (v : Hash) (hv : v ∈ L) :
    ∃ i, L.findIdx? (fun leaf => leaf = v) = some i ∧
      i < L.length ∧ L.getD i Hash.undef = v := by
  have hsome : (L.findIdx? (fun leaf => leaf = v)).isSome := by
    rw [List.findIdx?_isSome, List.any_eq_true]
    exact ⟨v, hv, by simp⟩
  rcases Option.isSome_iff_exists.mp hsome with ⟨i, hi⟩
  rcases List.findIdx?_eq_some_iff_getElem.mp hi with ⟨hlt, hget, _⟩
  refine ⟨i, hi, hlt, ?_⟩
  rw [List.getD_eq_getElem L Hash.undef hlt]
  simpa using hget

theorem rebuilt_level0 (t : MerkleTree) :
    t.rebuildSparseTree.tree.getD 0 [] = t.tree.getD 0 [] := by
  have h := rebuilt_tree_getD t 0 (Nat.zero_le _)
  simpa [lastLevel] using h

theorem rebuilt_root (t : MerkleTree) :
    t.rebuildSparseTree.root =
      (lastLevel t.zeros t.depth (t.tree.getD 0 [])).getD 0 Hash.undef := by
  show (t.rebuildSparseTree.tree.getD t.depth []).getD 0 Hash.undef = _
  rw [rebuilt_tree_getD t t.depth (Nat.le_refl _)]

/-- C1: for every well-formed tree (leaf level within capacity, holding no
undefined entries) and every leaf value present in the leaf level, running
`generateProof` immediately after `rebuildSparseTree` yields a proof that
`validateProof` accepts. -/
theorem c1_proof_roundtrip (t : MerkleTree) (v : Hash)
    (hcap : (t.tree.getD 0 []).length ≤ 2 ^ t.depth)
    (hundef : Hash.undef ∉ t.tree.getD 0 [])
    (hv : v ∈ t.tree.getD 0 []) :
    ∃ p, t.rebuildSparseTree.generateProof v = Except.ok p ∧
      MerkleTree.validateProof p = true := by
  rcases findIdx_eq_of_mem (t.tree.getD 0 []) v hv with ⟨i, hfind, hlt, hget⟩
  have hvne : v ≠ Hash.undef := fun h => hundef (h ▸ hv)
  refine ⟨{ element := v,
            elements := t.rebuildSparseTree.proofElements 0 i t.rebuildSparseTree.depth,
            indices := i,
            root := t.rebuildSparseTree.root }, ?_, ?_⟩
  · unfold MerkleTree.generateProof
    rw [rebuilt_level0, hfind]
  · rw [validateProof_eq_combineFrom, decide_eq_true_eq]
    have hdepth : t.rebuildSparseTree.depth = t.depth := rfl
    have helems : t.rebuildSparseTree.proofElements 0 i t.rebuildSparseTree.depth =
        pathElems t.zeros (t.tree.getD 0 []) i t.depth := by
      rw [hdepth, proofElements_rebuilt t t.depth 0 i (by omega)]
      rw [List.drop_zero]
      rfl
    have h0 : i / 2 ^ 0 = i := by simp
    have hwalk := combineFrom_pathElems i t.depth t.zeros (t.tree.getD 0 []) 0 v
      (by rw [h0]; exact hlt) (by rw [h0]; exact hget) hvne
    rw [h0, Nat.zero_add] at hwalk
    have hidx : i / 2 ^ t.depth = 0 :=
      Nat.div_eq_of_lt (Nat.lt_of_lt_of_le hlt hcap)
    rw [hidx] at hwalk
    show t.rebuildSparseTree.root = combineFrom i 0
      (t.rebuildSparseTree.proofElements 0 i t.rebuildSparseTree.depth) v
    rw [helems, hwalk, rebuilt_root]

theorem fallback_ne_undef (x y : Hash) (hy : y ≠ Hash.undef) :
    fallback x y ≠ Hash.undef := by
  unfold fallback
  by_cases hx : x = Hash.undef
  · rw [if_pos hx]; exact hy
  · rw [if_neg hx]; exact hx

theorem getD_mem_of_lt (L : List Hash) (i : Nat) (h : i < L.length) :
    L.getD i Hash.undef ∈ L := by
  rw [List.getD_eq_getElem L Hash.undef h]
  exact List.getElem_mem h

theorem pathElems_ne_undef :
    (f : Nat) → (zs L : List Hash) → (i : Nat) →
      i < L.length → Hash.undef ∉ L →
      (∀ j, j < f → zs.getD j Hash.undef ≠ Hash.undef) →
      ∀ e ∈ pathElems zs L i f, e ≠ Hash.undef
  | 0, _, _, _, _, _, _, e, he => by simp [pathElems] at he
  | f + 1, zs, L, i, hlt, hnoundef, hzeros, e, he => by
      simp only [pathElems, List.mem_cons] at he
      rcases he with he | he
      · subst he
        by_cases hpar : i % 2 = 0
        · rw [if_pos hpar]
          refine fallback_ne_undef _ _ ?_
          have h0 : zs.headD Hash.undef = zs.getD 0 Hash.undef := by
            cases zs <;> rfl
          rw [h0]
          exact hzeros 0 (by omega)
        · rw [if_neg hpar]
          intro hcontra
          refine hnoundef ?_
          rw [← hcontra]
          exact getD_mem_of_lt L (i - 1) (by omega)
      · refine pathElems_ne_undef f (zs.drop 1) (hashLevel (zs.headD Hash.undef) L)
          (i / 2) ?_ ?_ ?_ e he
        · rw [hashLevel_length]; omega
        · intro hmem
          exact hashLevel_ne_undef (zs.headD Hash.undef) L Hash.undef hmem rfl
        · intro j hj
          have : (zs.drop 1).getD j Hash.undef = zs.getD (j + 1) Hash.undef := by
            cases zs with
            | nil => simp
            | cons a rest => simp
          rw [this]
          exact hzeros (j + 1) (by omega)

theorem zeroLevel_ne_undef (n : Nat) : zeroLevel n ≠ Hash.undef := by
  cases n <;> simp [zeroLevel, zeroValue, hashLeftRight]

theorem getZeroValueLevels_getD (d j : Nat) (hj : j < d) :
    (getZeroValueLevels d).getD j Hash.undef = zeroLevel j := by
  unfold getZeroValueLevels
  rw [List.getD_eq_getElem _ Hash.undef (by simpa using hj)]
  simp

/-- C10: after a rebuild, every proof element returned by `generateProof` for
a present leaf is a defined hash; the odd-index branch reads the left sibling
with no zero fallback, and on a tree whose interior has not been rebuilt since
creation an elements entry is in fact `undefined` (second conjunct: a fresh
depth-2 tree holding three leaves, queried before any rebuild). -/
theorem c10_proof_elements_defined (t : MerkleTree) (v : Hash) (p : MerkleProof)
    (hz : t.zeros = getZeroValueLevels t.depth)
    (hundef : Hash.undef ∉ t.tree.getD 0 [])
    (hv : v ∈ t.tree.getD 0 [])
    (hp : t.rebuildSparseTree.generateProof v = Except.ok p) :
    (∀ e ∈ p.elements, e ≠ Hash.undef) ∧
      (((MerkleTree.createTree 0 2 none).insertLeaves
          [Hash.val 1, Hash.val 2, Hash.val 3] 0).generateProof
          (Hash.val 3)).toOption.map
        (fun q => q.elements.getD 1 Hash.undef) = some Hash.undef := by
  constructor
  · rcases findIdx_eq_of_mem (t.tree.getD 0 []) v hv with ⟨i, hfind, hlt, _⟩
    unfold MerkleTree.generateProof at hp
    rw [rebuilt_level0, hfind] at hp
    simp only [Except.ok.injEq] at hp
    have helems : p.elements = pathElems t.zeros (t.tree.getD 0 []) i t.depth := by
      rw [← hp]
      show t.rebuildSparseTree.proofElements 0 i t.depth = _
      rw [proofElements_rebuilt t t.depth 0 i (by omega), List.drop_zero]
      rfl
    rw [helems]
    refine pathElems_ne_undef t.depth t.zeros (t.tree.getD 0 []) i hlt hundef ?_
    intro j hj
    rw [hz, getZeroValueLevels_getD t.depth j hj]
    exact zeroLevel_ne_undef j
  · decide

/-- The fixture tree of the worked example: depth 16, leaves 0x02 0x04 0x08
0x10 0x20 0x40 inserted at offset 0, then finalized. -/
def c3tree : MerkleTree :=
  ((MerkleTree.createTree 0 16 none).insertLeaves
    [Hash.val 2, Hash.val 4, Hash.val 8, Hash.val 16, Hash.val 32, Hash.val 64]
    0).rebuildSparseTree

set_option maxRecDepth 20000

/-- C3 counterexample: on the worked-example fixture, proof element 1 is not
the level-1 entry of the zero chain (it is the hash of leaves 0x02 and 0x04),
refuting the claim that all elements from index 1 on equal the zero chain. -/
theorem c3_counterexample :
    (c3tree.generateProof (Hash.val 16)).toOption.map
      (fun p => decide (p.elements.getD 1 Hash.undef =
        c3tree.zeros.getD 1 Hash.undef)) = some false := by
  decide

/-- C3 amended: `generateProof(0x10)` on the fixture returns `indices = 3`;
element 0 is leaf 0x08, element 1 the hash of leaves 0x02 and 0x04, element 2
the hash of (hash of 0x20 and 0x40) with zero level 1, and elements 3..15 are
the zero chain from level 3 upward — exactly the repository's own test vector. -/
theorem c3_worked_example_amended :
    (c3tree.generateProof (Hash.val 16)).toOption.map (fun p => p.indices) =
      some 3 ∧
    (c3tree.generateProof (Hash.val 16)).toOption.map (fun p => p.elements) =
      some (Hash.val 8
        :: hashLeftRight (Hash.val 2) (Hash.val 4)
        :: hashLeftRight (hashLeftRight (Hash.val 32) (Hash.val 64)) (zeroLevel 1)
        :: (List.range 13).map (fun i => zeroLevel (i + 3))) :=
  ⟨by decide, by decide⟩

/-- C9: calling the pool-level `insertLeaves` with an empty batch returns the
current tree index unchanged, raises no error, and performs no mutation, for
every start position whatsoever — the offset and contiguity validations are
skipped entirely. -/
theorem c9_empty_insert_skips_validation (h : MerkleHelper) (startPosition : Int) :
    h.insertLeaves [] startPosition = Except.ok (h, h.currentTreeIndex) := rfl

/-- C5: the capacity invariant fails in the code: a depth-1 pool (capacity 2)
given five leaves at offset 0 spills three leaves into the fresh tree, whose
leaf level then has 3 > 2 entries. -/
theorem c5_capacity_bound_violated :
    ((MerkleHelper.new 1).insertLeaves
        [Hash.val 1, Hash.val 2, Hash.val 3, Hash.val 4, Hash.val 5] 0).toOption.map
      (fun pr => (pr.2, (pr.1.trees.get? 1).map MerkleTree.length)) =
        some (1, some 3) ∧
    2 ^ 1 < 3 :=
  ⟨by decide, by decide⟩

/-- C4 counterexample: an empty batch with a negative start position does not
fail — it returns the current index — refuting the claim that every call with
a negative start position fails with the invalid-offset error. -/
theorem c4_counterexample :
    (MerkleHelper.new 1).insertLeaves [] (-1) =
      Except.ok (MerkleHelper.new 1, 0) := by
  decide

/-- C4 amended: for every call with a nonempty batch (and a well-defined
current tree), a start position that is negative or at least the capacity
fails with the invalid-offset error, and an in-range start position different
from the current tree's leaf count fails with the non-contiguous-insertion
error; each failure is raised before any state is touched (the operation
returns no successor state). -/
theorem c4_validation_amended (h : MerkleHelper) (cur : MerkleTree)
    (leaves : List Hash) (sp : Int) (hne : leaves ≠ [])
    (hcur : h.trees.get? h.currentTreeIndex = some cur) :
    ((sp < 0 ∨ (h.maxLeaves : Int) ≤ sp) →
        h.insertLeaves leaves sp = Except.error "Invalid start position") ∧
    ((0 ≤ sp ∧ sp < (h.maxLeaves : Int) ∧ sp ≠ (cur.length : Int)) →
        h.insertLeaves leaves sp =
          Except.error "Start position does not match current tree length") := by
  constructor
  · intro hbad
    unfold MerkleHelper.insertLeaves
    rw [if_neg hne, if_pos hbad]
  · intro hgood
    unfold MerkleHelper.insertLeaves
    rw [if_neg hne, if_neg (by push_neg; omega), hcur]
    dsimp only
    rw [if_pos hgood.2.2]

/-- C4 witness: the depth-1 pool rejects a nonempty insertion at -1 and at 5
with the invalid-offset error, and at 1 (current leaf count 0) with the
non-contiguous-insertion error. -/
theorem c4_witness :
    ((((-1 : Int) < 0 ∨ ((MerkleHelper.new 1).maxLeaves : Int) ≤ (-1 : Int)) →
        (MerkleHelper.new 1).insertLeaves [Hash.val 7] (-1) =
          Except.error "Invalid start position") ∧
      ((0 ≤ (1 : Int) ∧ (1 : Int) < ((MerkleHelper.new 1).maxLeaves : Int) ∧
          (1 : Int) ≠ ((MerkleTree.createTree 0 1 none).length : Int)) →
        (MerkleHelper.new 1).insertLeaves [Hash.val 7] 1 =
          Except.error "Start position does not match current tree length")) :=
  c4_validation_amended (MerkleHelper.new 1) (MerkleTree.createTree 0 1 none)
    [Hash.val 7] (-1) (by decide) (by decide) |>.imp id
    (fun _ => (c4_validation_amended (MerkleHelper.new 1)
      (MerkleTree.createTree 0 1 none) [Hash.val 7] 1 (by decide) (by decide)).2)

/-- C6 counterexample: finalizing a freshly created depth-1 tree whose leaf
level is empty leaves `tree[depth]` with no hash at all, refuting the claim
that `levels[depth]` holds exactly one hash after every operation including
on an empty leaf level. -/
theorem c6_counterexample :
    (((MerkleTree.createTree 0 1 none).rebuildSparseTree).tree.getD 1 []).length ≠ 1 := by
  decide

theorem lastLevel_length_one :
    (d : Nat) → (zs L : List Hash) → L.length ≠ 0 → L.length ≤ 2 ^ d →
      (lastLevel zs d L).length = 1
  | 0, _, L, hne, hle => by
      simp only [lastLevel]
      omega
  | d + 1, zs, L, hne, hle => by
      show (lastLevel (zs.drop 1) d (hashLevel (zs.headD Hash.undef) L)).length = 1
      have hp : 2 ^ (d + 1) = 2 ^ d * 2 := Nat.pow_succ 2 d
      refine lastLevel_length_one d (zs.drop 1) _ ?_ ?_ <;>
        rw [hashLevel_length] <;> omega

/-- C6 amended: `root` is by definition `levels[depth][0]`; `tree[depth]`
holds exactly one hash after `createTree`, is untouched by `insertLeaves`
(depth at least 1), and holds exactly one hash after `rebuildSparseTree`
provided the leaf level is nonempty and within capacity — the exactly-one
property fails only for a rebuild of a tree with an empty leaf level (and for
an overfull leaf level), not in general. -/
theorem c6_root_level_amended (n d : Nat) (ft : Option MerkleTree)
    (t : MerkleTree) (leaves : List Hash) (pos : Nat)
    (hd : 1 ≤ t.depth)
    (hne : (t.tree.getD 0 []).length ≠ 0)
    (hcap : (t.tree.getD 0 []).length ≤ 2 ^ t.depth) :
    (((MerkleTree.createTree n d ft).tree.getD d []).length = 1) ∧
    ((t.insertLeaves leaves pos).tree.getD t.depth [] = t.tree.getD t.depth []) ∧
    (((t.rebuildSparseTree).tree.getD t.depth []).length = 1) ∧
    (∀ s : MerkleTree, s.root = (s.tree.getD s.depth []).getD 0 Hash.undef) := by
  refine ⟨?_, ?_, ?_, fun _ => rfl⟩
  · unfold MerkleTree.createTree
    simp [List.getElem?_append_right]
  · unfold MerkleTree.insertLeaves
    by_cases hl : leaves = []
    · rw [if_pos hl]
    · rw [if_neg hl]
      show (t.tree.set 0 _).getD t.depth [] = _
      simp only [List.getD_eq_getElem?_getD]
      rw [List.getElem?_set_ne (by omega)]
  · rw [rebuilt_tree_getD t t.depth (Nat.le_refl _)]
    exact lastLevel_length_one t.depth t.zeros _ hne hcap

/-- C6 witness: the amended statement at a depth-1 tree holding one leaf. -/
theorem c6_witness :
    ((((MerkleTree.createTree 0 1 none).tree.getD 1 []).length = 1) ∧
    ((((MerkleTree.createTree 0 1 none).insertLeaves [Hash.val 1] 0).insertLeaves
        [Hash.val 2] 1).tree.getD 1 [] =
      ((MerkleTree.createTree 0 1 none).insertLeaves [Hash.val 1] 0).tree.getD 1 []) ∧
    ((((MerkleTree.createTree 0 1 none).insertLeaves [Hash.val 1] 0).rebuildSparseTree).tree.getD 1 []).length = 1 ∧
    (∀ s : MerkleTree, s.root = (s.tree.getD s.depth []).getD 0 Hash.undef)) :=
  c6_root_level_amended 0 1 none
    ((MerkleTree.createTree 0 1 none).insertLeaves [Hash.val 1] 0)
    [Hash.val 2] 1 (by decide) (by decide) (by decide)

/-- C1 witness: the round trip at a depth-2 tree holding leaves 1 and 2. -/
theorem c1_witness :
    ∃ p, (((MerkleTree.createTree 0 2 none).insertLeaves
        [Hash.val 1, Hash.val 2] 0).rebuildSparseTree).generateProof (Hash.val 2) =
          Except.ok p ∧
      MerkleTree.validateProof p = true :=
  c1_proof_roundtrip ((MerkleTree.createTree 0 2 none).insertLeaves
    [Hash.val 1, Hash.val 2] 0) (Hash.val 2) (by decide) (by decide) (by decide)

/-- C10 witness: the definedness statement at a depth-1 tree holding one leaf,
whose generated proof is the zero sibling with the finalized root. -/
theorem c10_witness :
    (∀ e ∈ (MerkleProof.mk (Hash.val 1) [zeroValue] 0
        (hashLeftRight (Hash.val 1) zeroValue)).elements,
      e ≠ Hash.undef) ∧
      (((MerkleTree.createTree 0 2 none).insertLeaves
          [Hash.val 1, Hash.val 2, Hash.val 3] 0).generateProof
          (Hash.val 3)).toOption.map
        (fun q => q.elements.getD 1 Hash.undef) = some Hash.undef :=
  c10_proof_elements_defined
    ((MerkleTree.createTree 0 1 none).insertLeaves [Hash.val 1] 0)
    (Hash.val 1)
    (MerkleProof.mk (Hash.val 1) [zeroValue] 0
      (hashLeftRight (Hash.val 1) zeroValue))
    (by decide) (by decide) (by decide) (by decide)

/-- Modelled from the spec words of proof validation: starting from
`proof.element`, for level `i = 0 .. depth-1` combine the running hash with
`proof.elements[i]`, placing the running hash on the right when bit `i`
(least significant = bit 0) of `proof.indices` is set and on the left
otherwise. -/
def specWalk (indices : Nat) (els : List Hash) (start : Hash) : Nat → Hash
  | 0 => start
  | i + 1 =>
      if indices.testBit i then
        hashLeftRight (els.getD i Hash.undef) (specWalk indices els start i)
      else hashLeftRight (specWalk indices els start i) (els.getD i Hash.undef)

/-- Modelled from the spec: a proof is valid iff the hash obtained by the
level walk equals `proof.root` byte-exactly. -/
def validateProofSpec (depth : Nat) (proof : MerkleProof) : Bool :=
  decide (proof.root = specWalk proof.indices proof.elements proof.element depth)

theorem testBit_iff_and_pos (n i : Nat) :
    n.testBit i = true ↔ 0 < n &&& 2 ^ i := by
  rw [Nat.testBit_to_div_mod, decide_eq_true_eq]
  exact (and_two_pow_pos_iff n i).symm

theorem combineFrom_concat (idxs : Nat) :
    (els : List Hash) → (e : Hash) → (k : Nat) → (cur : Hash) →
      combineFrom idxs k (els ++ [e]) cur =
        (if 0 < idxs &&& 2 ^ (k + els.length) then
          hashLeftRight e (combineFrom idxs k els cur)
        else hashLeftRight (combineFrom idxs k els cur) e)
  | [], e, k, cur => by simp [combineFrom]
  | a :: els, e, k, cur => by
      show combineFrom idxs (k + 1) (els ++ [e]) _ = _
      rw [combineFrom_concat idxs els e (k + 1) _]
      have hk : k + 1 + els.length = k + (a :: els).length := by
        simp only [List.length_cons]
        omega
      rw [hk]
      rfl

theorem specWalk_concat_stable (idxs : Nat) (els : List Hash) (e : Hash)
    (start : Hash) :
    (j : Nat) → j ≤ els.length →
      specWalk idxs (els ++ [e]) start j = specWalk idxs els start j
  | 0, _ => rfl
  | j + 1, hj => by
      simp only [specWalk]
      rw [specWalk_concat_stable idxs els e start j (by omega)]
      rw [List.getD_append els [e] Hash.undef j (by omega)]

theorem combineFrom_eq_specWalk (els : List Hash) (idxs : Nat) (start : Hash) :
    combineFrom idxs 0 els start = specWalk idxs els start els.length := by
  induction els using List.reverseRecOn with
  | nil => rfl
  | append_singleton els e ih =>
      rw [combineFrom_concat idxs els e 0 start, ih]
      have hlen : (els ++ [e]).length = els.length + 1 := by simp
      rw [hlen]
      simp only [specWalk]
      rw [specWalk_concat_stable idxs els e start els.length (Nat.le_refl _)]
      have hgete : (els ++ [e]).getD els.length Hash.undef = e := by
        simp [List.getD_eq_getElem?_getD, List.getElem?_concat_length]
      rw [hgete, Nat.zero_add]
      cases ht : idxs.testBit els.length with
      | false =>
          rw [if_neg (by rw [← testBit_iff_and_pos, ht]; simp), if_neg (by simp [ht])]
      | true =>
          rw [if_pos ((testBit_iff_and_pos idxs els.length).mp ht), if_pos (by simp [ht])]

/-- C7: `validateProof` computes exactly the walk the spec describes — for a
proof whose elements sequence has the stated length `depth`, the code's fold
over `elements` with the test `indices AND 2 to-the index` coincides with the
spec's iteration over levels `0 .. depth-1` testing bit `i` of `indices`, and
both accept iff the final combined hash equals `proof.root` byte-exactly. -/
theorem c7_validateProof_matches_spec (proof : MerkleProof) (depth : Nat)
    (hlen : proof.elements.length = depth) :
    MerkleTree.validateProof proof = validateProofSpec depth proof := by
  rw [validateProof_eq_combineFrom]
  unfold validateProofSpec
  rw [combineFrom_eq_specWalk, hlen]

/-- C7 witness: the equivalence at a concrete depth-2 proof. -/
theorem c7_witness :
    MerkleTree.validateProof
        (MerkleProof.mk (Hash.val 1) [Hash.val 2, Hash.val 3] 2 (Hash.val 9)) =
      validateProofSpec 2
        (MerkleProof.mk (Hash.val 1) [Hash.val 2, Hash.val 3] 2 (Hash.val 9)) :=
  c7_validateProof_matches_spec
    (MerkleProof.mk (Hash.val 1) [Hash.val 2, Hash.val 3] 2 (Hash.val 9)) 2
    (by decide)

/-- C8: a fresh manager holds no nullifier; inserting an absent nullifier
succeeds, appends it, and makes `checkNullifier` answer true; inserting a
present nullifier fails with the duplicate error and returns no successor
state; `checkNullifier` is a pure membership test with no side effects. -/
theorem c8_nullifier_uniqueness (d : Nat) (m : MerkleManager) (nullifier : String) :
    (MerkleManager.new d).checkNullifier nullifier = false ∧
    (m.checkNullifier nullifier = false →
      m.insertNullifier nullifier =
        Except.ok { m with nullifiers := m.nullifiers ++ [nullifier] } ∧
      MerkleManager.checkNullifier
        { m with nullifiers := m.nullifiers ++ [nullifier] } nullifier = true) ∧
    (m.checkNullifier nullifier = true →
      m.insertNullifier nullifier = Except.error "Nullifier already exists") := by
  refine ⟨?_, fun hc => ⟨?_, ?_⟩, fun hc => ?_⟩
  · simp [MerkleManager.new, MerkleManager.checkNullifier]
  · unfold MerkleManager.insertNullifier
    unfold MerkleManager.checkNullifier at hc
    rw [if_neg (by rw [hc]; simp)]
  · unfold MerkleManager.checkNullifier
    simp
  · unfold MerkleManager.insertNullifier
    unfold MerkleManager.checkNullifier at hc
    rw [if_pos hc]

theorem set_concat_len {α : Type} :
    (l : List α) → (a b : α) → (l ++ [a]).set l.length b = l ++ [b]
  | [], _, _ => rfl
  | x :: l, a, b => by
      simp only [List.cons_append, List.length_cons, List.set_cons_succ]
      rw [set_concat_len l a b]

theorem writeAt_append (L : List Hash) (v : Hash) :
    writeAt L L.length v = L ++ [v] := by
  unfold writeAt
  rw [if_neg (by omega)]
  simp

theorem writeLeaves_append :
    (leaves : List Hash) → (L : List Hash) →
      writeLeaves L L.length leaves = L ++ leaves
  | [], L => by simp [writeLeaves]
  | leaf :: rest, L => by
      show writeLeaves (writeAt L L.length leaf) (L.length + 1) rest = _
      rw [writeAt_append]
      have hl : L.length + 1 = (L ++ [leaf]).length := by simp
      rw [hl, writeLeaves_append rest (L ++ [leaf])]
      simp

theorem insertLeaves_level0 (t : MerkleTree) (leaves : List Hash)
    (hne : leaves ≠ []) (htree : t.tree ≠ []) :
    (t.insertLeaves leaves (t.tree.getD 0 []).length).tree.getD 0 [] =
      t.tree.getD 0 [] ++ leaves := by
  unfold MerkleTree.insertLeaves
  rw [if_neg hne]
  show (t.tree.set 0 _).getD 0 [] = _
  rw [writeLeaves_append]
  cases htt : t.tree with
  | nil => exact absurd htt htree
  | cons l ls => simp

theorem insertLeaves_depth (t : MerkleTree) (leaves : List Hash) (p : Nat) :
    (t.insertLeaves leaves p).depth = t.depth := by
  unfold MerkleTree.insertLeaves
  split <;> rfl

theorem insertLeaves_zeros (t : MerkleTree) (leaves : List Hash) (p : Nat) :
    (t.insertLeaves leaves p).zeros = t.zeros := by
  unfold MerkleTree.insertLeaves
  split <;> rfl

theorem insertLeaves_tree_ne_nil (t : MerkleTree) (leaves : List Hash) (p : Nat)
    (htree : t.tree ≠ []) : (t.insertLeaves leaves p).tree ≠ [] := by
  unfold MerkleTree.insertLeaves
  split
  · exact htree
  · show t.tree.set 0 _ ≠ []
    cases htt : t.tree with
    | nil => exact absurd htt htree
    | cons l ls => simp

theorem getD_replicate_append (d : Nat) (x : List Hash) :
    ((List.replicate d ([] : List Hash)) ++ [x]).getD d [] = x := by
  simp [List.getD_eq_getElem?_getD, List.getElem?_append_right]

theorem createTree_root_some (n d : Nat) (ft : MerkleTree)
    (hr : ft.root ≠ Hash.undef) :
    (MerkleTree.createTree n d (some ft)).root = ft.root := by
  unfold MerkleTree.createTree MerkleTree.root
  simp only
  rw [getD_replicate_append]
  show fallback ft.root _ = ft.root
  unfold fallback
  rw [if_neg hr]

theorem createTree_level0 (n d : Nat) (ft : Option MerkleTree) (hd : 1 ≤ d) :
    (MerkleTree.createTree n d ft).tree.getD 0 [] = [] := by
  unfold MerkleTree.createTree
  simp only
  cases d with
  | zero => omega
  | succ d => simp [List.replicate_succ]

theorem createTree_tree_ne_nil (n d : Nat) (ft : Option MerkleTree) :
    (MerkleTree.createTree n d ft).tree ≠ [] := by
  unfold MerkleTree.createTree
  simp only
  cases d <;> simp [List.replicate_succ]

theorem lastLevel_getD0_ne_undef :
    (d : Nat) → (zs L : List Hash) → L ≠ [] → Hash.undef ∉ L →
      (lastLevel zs d L).getD 0 Hash.undef ≠ Hash.undef
  | 0, zs, L, hne, hnu => by
      simp only [lastLevel]
      intro hcontra
      refine hnu ?_
      rw [← hcontra]
      refine getD_mem_of_lt L 0 ?_
      cases L with
      | nil => exact absurd rfl hne
      | cons a l => simp
  | d + 1, zs, L, hne, hnu => by
      show (lastLevel (zs.drop 1) d (hashLevel (zs.headD Hash.undef) L)).getD 0
        Hash.undef ≠ Hash.undef
      refine lastLevel_getD0_ne_undef d (zs.drop 1) _
        (hashLevel_ne_nil _ L hne) ?_
      intro hmem
      exact hashLevel_ne_undef (zs.headD Hash.undef) L Hash.undef hmem rfl

theorem finalizeTree_of_get (h : MerkleHelper) (cur : MerkleTree)
    (hc : h.trees.get? h.currentTreeIndex = some cur) :
    h.finalizeTree = Except.ok (h.setCurrentTree cur.rebuildSparseTree) := by
  unfold MerkleHelper.finalizeTree
  rw [hc]

theorem createNextTree_of_get (h : MerkleHelper) (cur : MerkleTree)
    (hc : h.trees.get? h.currentTreeIndex = some cur) :
    h.createNextTree = Except.ok
      { h with
        trees := h.trees ++
          [MerkleTree.createTree h.trees.length h.treeDepth (some cur)],
        currentTreeIndex := h.trees.length } := by
  unfold MerkleHelper.createNextTree
  rw [hc]

/-- The zero chain starting at a given level, the form of `getZeroValueLevels`
convenient for induction. -/
def zeroChainFrom : Nat → Nat → List Hash
  | _, 0 => []
  | j, d + 1 => zeroLevel j :: zeroChainFrom (j + 1) d

theorem range_map_zeroLevel :
    (d : Nat) → (j : Nat) → (List.range' j d).map zeroLevel = zeroChainFrom j d
  | 0, _ => rfl
  | d + 1, j => by
      rw [List.range'_succ]
      simp only [List.map_cons, zeroChainFrom]
      rw [range_map_zeroLevel d (j + 1)]

theorem getZeroValueLevels_eq_chain (d : Nat) :
    getZeroValueLevels d = zeroChainFrom 0 d := by
  unfold getZeroValueLevels
  rw [List.range_eq_range', range_map_zeroLevel d 0]

theorem fallback_of_ne (b z : Hash) (hb : b ≠ Hash.undef) : fallback b z = b := by
  unfold fallback
  rw [if_neg hb]

theorem hashLevel_indep :
    (L : List Hash) → (z z' : Hash) → L.length % 2 = 0 → Hash.undef ∉ L →
      hashLevel z L = hashLevel z' L
  | [], _, _, _, _ => rfl
  | [a], z, z', hlen, _ => by simp at hlen
  | a :: b :: rest, z, z', hlen, hnu => by
      simp only [hashLevel]
      rw [fallback_of_ne b z (by intro hb; exact hnu (by rw [← hb]; simp)),
        fallback_of_ne b z' (by intro hb; exact hnu (by rw [← hb]; simp))]
      rw [hashLevel_indep rest z z' (by simp at hlen ⊢; omega)
        (fun hm => hnu (by simp [hm]))]

theorem lastLevel_indep :
    (d : Nat) → (zs zs' L : List Hash) → L.length = 2 ^ d → Hash.undef ∉ L →
      lastLevel zs d L = lastLevel zs' d L
  | 0, _, _, _, _, _ => rfl
  | d + 1, zs, zs', L, hlen, hnu => by
      show lastLevel (zs.drop 1) d (hashLevel (zs.headD Hash.undef) L) = _
      have heven : L.length % 2 = 0 := by
        rw [hlen, Nat.pow_succ]
        omega
      rw [hashLevel_indep L (zs.headD Hash.undef) (zs'.headD Hash.undef) heven hnu]
      refine lastLevel_indep d (zs.drop 1) (zs'.drop 1) _ ?_ ?_
      · rw [hashLevel_length, hlen, Nat.pow_succ]
        omega
      · intro hm
        exact hashLevel_ne_undef _ L Hash.undef hm rfl

theorem hashLevel_replicate :
    (p : Nat) → (z : Hash) → p % 2 = 0 → z ≠ Hash.undef →
      hashLevel z (List.replicate p z) =
        List.replicate (p / 2) (hashLeftRight z z)
  | 0, _, _, _ => rfl
  | 1, z, hp, _ => by omega
  | p + 2, z, hp, hz => by
      rw [List.replicate_succ, List.replicate_succ]
      simp only [hashLevel]
      rw [fallback_of_ne z z hz]
      rw [hashLevel_replicate p z (by omega) hz]
      have : (p + 2) / 2 = p / 2 + 1 := by omega
      rw [this, List.replicate_succ]

theorem hashLevel_pad :
    (M : List Hash) → (p : Nat) → (z : Hash) → (M.length + p) % 2 = 0 →
      Hash.undef ∉ M → z ≠ Hash.undef →
      hashLevel z (M ++ List.replicate p z) =
        hashLevel z M ++
          List.replicate ((M.length + p) / 2 - (M.length + 1) / 2)
            (hashLeftRight z z)
  | [], p, z, hpar, _, hz => by
      simp only [List.nil_append, hashLevel, List.length_nil]
      rw [hashLevel_replicate p z (by simpa using hpar) hz]
      congr 1
      omega
  | [a], p, z, hpar, hnu, hz => by
      have hp1 : p % 2 = 1 := by simp at hpar; omega
      cases p with
      | zero => omega
      | succ q =>
          rw [List.replicate_succ]
          show hashLeftRight a (fallback z z) ::
              hashLevel z (List.replicate q z) = _
          rw [fallback_of_ne z z hz]
          rw [hashLevel_replicate q z (by omega) hz]
          have hc : ([a].length + (q + 1)) / 2 - ([a].length + 1) / 2 = q / 2 := by
            simp only [List.length_singleton]
            omega
          rw [hc]
          simp [hashLevel]
  | a :: b :: rest, p, z, hpar, hnu, hz => by
      have hc : ((a :: b :: rest).length + p) / 2 - ((a :: b :: rest).length + 1) / 2 =
          (rest.length + p) / 2 - (rest.length + 1) / 2 := by
        simp only [List.length_cons]
        omega
      rw [hc]
      show hashLeftRight a (fallback b z) ::
          hashLevel z (rest ++ List.replicate p z) =
        (hashLeftRight a (fallback b z) :: hashLevel z rest) ++
          List.replicate ((rest.length + p) / 2 - (rest.length + 1) / 2)
            (hashLeftRight z z)
      rw [hashLevel_pad rest p z (by simp at hpar ⊢; omega)
        (fun hm => hnu (by simp [hm])) hz]
      simp

theorem lastLevel_pad :
    (d : Nat) → (j : Nat) → (M : List Hash) → M ≠ [] → M.length ≤ 2 ^ d →
      Hash.undef ∉ M →
      lastLevel (zeroChainFrom j d) d
          (M ++ List.replicate (2 ^ d - M.length) (zeroLevel j)) =
        lastLevel (zeroChainFrom j d) d M
  | 0, j, M, hne, hle, _ => by
      have h1 : M.length = 1 := by
        cases M with
        | nil => exact absurd rfl hne
        | cons a l => simp only [List.length_cons, Nat.pow_zero] at hle ⊢; omega
      rw [h1]
      simp [lastLevel]
  | d + 1, j, M, hne, hle, hnu => by
      have h2 : 2 ^ (d + 1) = 2 * 2 ^ d := by rw [Nat.pow_succ]; omega
      show lastLevel (zeroChainFrom (j + 1) d) d
          (hashLevel (zeroLevel j)
            (M ++ List.replicate (2 ^ (d + 1) - M.length) (zeroLevel j))) =
        lastLevel (zeroChainFrom (j + 1) d) d (hashLevel (zeroLevel j) M)
      rw [hashLevel_pad M (2 ^ (d + 1) - M.length) (zeroLevel j)
        (by omega) hnu (zeroLevel_ne_undef j)]
      have hzz : hashLeftRight (zeroLevel j) (zeroLevel j) = zeroLevel (j + 1) := rfl
      rw [hzz]
      have hcount : (M.length + (2 ^ (d + 1) - M.length)) / 2 - (M.length + 1) / 2 =
          2 ^ d - (hashLevel (zeroLevel j) M).length := by
        rw [hashLevel_length]
        omega
      rw [hcount]
      exact lastLevel_pad d (j + 1) (hashLevel (zeroLevel j) M)
        (hashLevel_ne_nil _ M hne)
        (by rw [hashLevel_length]; omega)
        (fun hm => hashLevel_ne_undef _ M Hash.undef hm rfl)

theorem hashLevel_inj (z : Hash) :
    (L : List Hash) → (L' : List Hash) → L.length = L'.length →
      Hash.undef ∉ L → Hash.undef ∉ L' →
      hashLevel z L = hashLevel z L' → L = L'
  | [], L', hlen, _, _, _ => by
      cases L' with
      | nil => rfl
      | cons a l => simp at hlen
  | [a], L', hlen, h1, h2, heq => by
      cases L' with
      | nil => simp at hlen
      | cons a' l' =>
          cases l' with
          | nil =>
              simp only [hashLevel, hashLeftRight, List.cons.injEq,
                Hash.node.injEq] at heq
              rw [heq.1.1]
          | cons b' r' =>
              simp only [List.length_singleton, List.length_cons,
                List.length_nil] at hlen
              omega
  | a :: b :: r, L', hlen, h1, h2, heq => by
      cases L' with
      | nil => simp at hlen
      | cons a' l' =>
          cases l' with
          | nil =>
              simp only [List.length_singleton, List.length_cons,
                List.length_nil] at hlen
              omega
          | cons b' r' =>
              simp only [hashLevel, hashLeftRight, List.cons.injEq,
                Hash.node.injEq] at heq
              obtain ⟨⟨ha, hf⟩, htail⟩ := heq
              have hbne : b ≠ Hash.undef := fun hb => h1 (by rw [← hb]; simp)
              have hbne' : b' ≠ Hash.undef := fun hb => h2 (by rw [← hb]; simp)
              rw [fallback_of_ne b z hbne, fallback_of_ne b' z hbne'] at hf
              have hr : r = r' := hashLevel_inj z r r'
                (by simp only [List.length_cons] at hlen; omega)
                (fun hm => h1 (by simp [hm])) (fun hm => h2 (by simp [hm])) htail
              rw [ha, hf, hr]

theorem lastLevel_root_inj :
    (d : Nat) → (zs L L' : List Hash) → L.length = 2 ^ d → L'.length = 2 ^ d →
      Hash.undef ∉ L → Hash.undef ∉ L' →
      (lastLevel zs d L).getD 0 Hash.undef =
        (lastLevel zs d L').getD 0 Hash.undef →
      L = L'
  | 0, zs, L, L', h1, h2, _, _, heq => by
      obtain ⟨a, ha⟩ := List.length_eq_one.mp (by simpa using h1)
      obtain ⟨a', ha'⟩ := List.length_eq_one.mp (by simpa using h2)
      subst ha
      subst ha'
      simp only [lastLevel, List.getD_cons_zero] at heq
      rw [heq]
  | d + 1, zs, L, L', h1, h2, hn1, hn2, heq => by
      have h2p : 2 ^ (d + 1) = 2 * 2 ^ d := by rw [Nat.pow_succ]; omega
      have hsub := lastLevel_root_inj d (zs.drop 1)
        (hashLevel (zs.headD Hash.undef) L) (hashLevel (zs.headD Hash.undef) L')
        (by rw [hashLevel_length]; omega)
        (by rw [hashLevel_length]; omega)
        (fun hm => hashLevel_ne_undef _ L Hash.undef hm rfl)
        (fun hm => hashLevel_ne_undef _ L' Hash.undef hm rfl)
        heq
      exact hashLevel_inj (zs.headD Hash.undef) L L' (by omega) hn1 hn2 hsub

/-- The current tree after step (1) of the spill protocol (prefix inserted)
and step (2) (finalized). -/
def spillPrefix (cur : MerkleTree) (leaves : List Hash) (d k : Nat) : MerkleTree :=
  (cur.insertLeaves (leaves.take k) (2 ^ d - k)).rebuildSparseTree

/-- The tree appended by step (3) of the spill protocol, seeded from the
finalized current tree. -/
def spillNewTree (h : MerkleHelper) (cur : MerkleTree) (leaves : List Hash)
    (k : Nat) : MerkleTree :=
  MerkleTree.createTree h.trees.length h.treeDepth
    (some (spillPrefix cur leaves h.treeDepth k))

/-- The appended tree after step (4) of the spill protocol (overflow suffix
inserted at position 0). -/
def spillNewTreeFilled (h : MerkleHelper) (cur : MerkleTree) (leaves : List Hash)
    (k : Nat) : MerkleTree :=
  (spillNewTree h cur leaves k).insertLeaves (leaves.drop k) 0

theorem spill_roots_ne (d : Nat) (zsL L M : List Hash)
    (hL : L.length = 2 ^ d) (hM : M ≠ []) (hMle : M.length ≤ 2 ^ d)
    (hnuL : Hash.undef ∉ L) (hnuM : Hash.undef ∉ M)
    (hpad : M ++ List.replicate (2 ^ d - M.length) zeroValue ≠ L) :
    (lastLevel (getZeroValueLevels d) d M).getD 0 Hash.undef ≠
      (lastLevel zsL d L).getD 0 Hash.undef := by
  intro heq
  rw [getZeroValueLevels_eq_chain] at heq
  rw [← lastLevel_pad d 0 M hM hMle hnuM] at heq
  rw [lastLevel_indep d zsL (zeroChainFrom 0 d) L hL hnuL] at heq
  have hz0 : zeroLevel 0 = zeroValue := rfl
  refine hpad ?_
  rw [← hz0]
  refine lastLevel_root_inj d (zeroChainFrom 0 d) _ L ?_ hL ?_ hnuL heq
  · rw [List.length_append, List.length_replicate]
    omega
  · intro hmem
    rcases List.mem_append.mp hmem with hmem | hmem
    · exact hnuM hmem
    · have := List.eq_of_mem_replicate hmem
      exact zeroLevel_ne_undef 0 this.symm

theorem get?_concat_length {α : Type} (l : List α) (a : α) :
    (l ++ [a]).get? l.length = some a := by
  rw [List.get?_eq_getElem?]
  exact List.getElem?_concat_length l a

/-- C2 amended (capacity spill): on a well-formed pool whose current tree
holds `capacity - k` leaves (`0 < k ≤ capacity`), inserting `k + m` leaves
(`0 < m ≤ capacity`) at start position `capacity - k` performs, in order: the
first `k` leaves are appended to the current tree; that tree is finalized; a
new tree is appended whose pre-insertion root equals the just-finalized root;
the remaining `m` leaves land in the new tree from position 0; the call
returns the new tree's index; and — provided the overflow leaves padded with
the zero leaf do not reproduce the previous tree's leaf vector — the new
tree's root after its own finalize differs from the inherited placeholder. -/
theorem c2_capacity_spill (h : MerkleHelper) (cur : MerkleTree)
    (leaves : List Hash) (k m : Nat)
    (hmax : h.maxLeaves = 2 ^ h.treeDepth)
    (hd1 : 1 ≤ h.treeDepth)
    (hidx : h.trees.get? h.currentTreeIndex = some cur)
    (hctree : cur.tree ≠ [])
    (hdep : cur.depth = h.treeDepth)
    (hlen : cur.length = 2 ^ h.treeDepth - k)
    (hk : 0 < k) (hk2 : k ≤ 2 ^ h.treeDepth)
    (hm : 0 < m) (hm2 : m ≤ 2 ^ h.treeDepth)
    (hleaves : leaves.length = k + m)
    (hnu1 : Hash.undef ∉ cur.tree.getD 0 [])
    (hnu2 : Hash.undef ∉ leaves)
    (hpad : leaves.drop k ++ List.replicate (2 ^ h.treeDepth - m) zeroValue ≠
      cur.tree.getD 0 [] ++ leaves.take k) :
    (cur.insertLeaves (leaves.take k) (2 ^ h.treeDepth - k)).tree.getD 0 [] =
        cur.tree.getD 0 [] ++ leaves.take k ∧
    ((cur.insertLeaves (leaves.take k) (2 ^ h.treeDepth - k)).tree.getD 0 []).length =
        2 ^ h.treeDepth ∧
    (spillNewTree h cur leaves k).root = (spillPrefix cur leaves h.treeDepth k).root ∧
    (spillNewTreeFilled h cur leaves k).tree.getD 0 [] = leaves.drop k ∧
    h.insertLeaves leaves ((2 ^ h.treeDepth - k : Nat) : Int) =
      Except.ok
        ({ h with
            trees := (h.trees.set h.currentTreeIndex
                (spillPrefix cur leaves h.treeDepth k)) ++
              [spillNewTreeFilled h cur leaves k],
            currentTreeIndex := h.trees.length },
          h.trees.length) ∧
    (spillNewTreeFilled h cur leaves k).rebuildSparseTree.root ≠
      (spillNewTree h cur leaves k).root := by
  have hcap_pos : 0 < 2 ^ h.treeDepth := Nat.pos_pow_of_pos _ (by omega)
  have htake_len : (leaves.take k).length = k := by
    rw [List.length_take]
    omega
  have hdrop_len : (leaves.drop k).length = m := by
    rw [List.length_drop]
    omega
  have htake_ne : leaves.take k ≠ [] := by
    intro h0
    rw [h0] at htake_len
    simp at htake_len
    omega
  have hdrop_ne : leaves.drop k ≠ [] := by
    intro h0
    rw [h0] at hdrop_len
    simp at hdrop_len
    omega
  have hleaves_ne : leaves ≠ [] := by
    intro h0
    rw [h0] at hleaves
    simp at hleaves
    omega
  have hpos : 2 ^ h.treeDepth - k = (cur.tree.getD 0 []).length := by
    rw [← hlen]
    rfl
  have conj_a : (cur.insertLeaves (leaves.take k) (2 ^ h.treeDepth - k)).tree.getD 0 [] =
      cur.tree.getD 0 [] ++ leaves.take k := by
    rw [hpos]
    exact insertLeaves_level0 cur (leaves.take k) htake_ne hctree
  have hlen0 : (cur.tree.getD 0 []).length = 2 ^ h.treeDepth - k := hlen
  have conj_b : ((cur.insertLeaves (leaves.take k) (2 ^ h.treeDepth - k)).tree.getD 0 []).length =
      2 ^ h.treeDepth := by
    rw [conj_a, List.length_append, htake_len]
    omega
  have hL1_nu : Hash.undef ∉ cur.tree.getD 0 [] ++ leaves.take k := by
    intro hmem
    rcases List.mem_append.mp hmem with hmem | hmem
    · exact hnu1 hmem
    · exact hnu2 (List.take_subset k leaves hmem)
  have hprefix_zeros : (cur.insertLeaves (leaves.take k) (2 ^ h.treeDepth - k)).zeros =
      cur.zeros := insertLeaves_zeros cur _ _
  have hprefix_depth : (cur.insertLeaves (leaves.take k) (2 ^ h.treeDepth - k)).depth =
      cur.depth := insertLeaves_depth cur _ _
  have hprefix_root : (spillPrefix cur leaves h.treeDepth k).root =
      (lastLevel cur.zeros h.treeDepth
        (cur.tree.getD 0 [] ++ leaves.take k)).getD 0 Hash.undef := by
    unfold spillPrefix
    rw [rebuilt_root, hprefix_zeros, hprefix_depth, hdep, conj_a]
  have hL1_ne : cur.tree.getD 0 [] ++ leaves.take k ≠ [] := by
    intro h0
    have := congrArg List.length h0
    rw [List.length_append, htake_len] at this
    simp at this
    omega
  have hroot_ne_undef : (spillPrefix cur leaves h.treeDepth k).root ≠ Hash.undef := by
    rw [hprefix_root]
    exact lastLevel_getD0_ne_undef h.treeDepth cur.zeros _ hL1_ne hL1_nu
  have conj_c : (spillNewTree h cur leaves k).root =
      (spillPrefix cur leaves h.treeDepth k).root := by
    unfold spillNewTree
    exact createTree_root_some h.trees.length h.treeDepth _ hroot_ne_undef
  have hnew0 : (spillNewTree h cur leaves k).tree.getD 0 [] = [] := by
    unfold spillNewTree
    exact createTree_level0 _ _ _ hd1
  have hnewnn : (spillNewTree h cur leaves k).tree ≠ [] := by
    unfold spillNewTree
    exact createTree_tree_ne_nil _ _ _
  have conj_d : (spillNewTreeFilled h cur leaves k).tree.getD 0 [] = leaves.drop k := by
    unfold spillNewTreeFilled
    have hins := insertLeaves_level0 (spillNewTree h cur leaves k) (leaves.drop k)
      hdrop_ne hnewnn
    rw [hnew0] at hins
    simpa using hins
  refine ⟨conj_a, conj_b, conj_c, conj_d, ?_, ?_⟩
  · -- symbolic execution of the spill branch
    have hlt : h.currentTreeIndex < h.trees.length := by
      by_contra hge
      rw [List.get?_eq_none.mpr (by omega)] at hidx
      exact Option.noConfusion hidx
    unfold MerkleHelper.insertLeaves
    rw [if_neg hleaves_ne]
    rw [if_neg (by rw [hmax]; omega)]
    rw [hidx]
    dsimp only
    rw [if_neg (fun hcontra => hcontra (by rw [hlen]))]
    rw [if_pos (by rw [hmax, hlen, hleaves]; omega)]
    have hrem : h.maxLeaves - cur.length = k := by
      rw [hmax, hlen]
      omega
    rw [hrem, if_pos hk, Int.toNat_natCast]
    have hget1 : (h.setCurrentTree
          (cur.insertLeaves (leaves.take k) (2 ^ h.treeDepth - k))).trees.get?
          (h.setCurrentTree
            (cur.insertLeaves (leaves.take k) (2 ^ h.treeDepth - k))).currentTreeIndex =
        some (cur.insertLeaves (leaves.take k) (2 ^ h.treeDepth - k)) :=
      List.get?_set_eq_of_lt _ hlt
    rw [finalizeTree_of_get _ _ hget1]
    dsimp only
    have hss : (h.setCurrentTree
          (cur.insertLeaves (leaves.take k) (2 ^ h.treeDepth - k))).setCurrentTree
          ((cur.insertLeaves (leaves.take k) (2 ^ h.treeDepth - k)).rebuildSparseTree) =
        h.setCurrentTree (spillPrefix cur leaves h.treeDepth k) := by
      unfold MerkleHelper.setCurrentTree spillPrefix
      dsimp only
      rw [List.set_set]
    rw [hss]
    have hget2 : (h.setCurrentTree (spillPrefix cur leaves h.treeDepth k)).trees.get?
          (h.setCurrentTree (spillPrefix cur leaves h.treeDepth k)).currentTreeIndex =
        some (spillPrefix cur leaves h.treeDepth k) :=
      List.get?_set_eq_of_lt _ hlt
    rw [createNextTree_of_get _ _ hget2]
    dsimp only
    have hnewfold : MerkleTree.createTree
        (h.setCurrentTree (spillPrefix cur leaves h.treeDepth k)).trees.length
        (h.setCurrentTree (spillPrefix cur leaves h.treeDepth k)).treeDepth
        (some (spillPrefix cur leaves h.treeDepth k)) = spillNewTree h cur leaves k := by
      show MerkleTree.createTree
        (h.trees.set h.currentTreeIndex (spillPrefix cur leaves h.treeDepth k)).length
        h.treeDepth (some (spillPrefix cur leaves h.treeDepth k)) = _
      rw [List.length_set]
      rfl
    rw [hnewfold]
    have hget3 : ((h.setCurrentTree (spillPrefix cur leaves h.treeDepth k)).trees ++
          [spillNewTree h cur leaves k]).get?
          (h.setCurrentTree (spillPrefix cur leaves h.treeDepth k)).trees.length =
        some (spillNewTree h cur leaves k) :=
      get?_concat_length _ _
    rw [hget3]
    dsimp only
    refine congrArg Except.ok ?_
    have hsnd : (h.setCurrentTree (spillPrefix cur leaves h.treeDepth k)).trees.length =
        h.trees.length := by
      show (h.trees.set h.currentTreeIndex (spillPrefix cur leaves h.treeDepth k)).length = _
      rw [List.length_set]
    refine Prod.ext ?_ hsnd
    show MerkleHelper.setCurrentTree _ _ = _
    unfold MerkleHelper.setCurrentTree
    dsimp only
    rw [show (spillNewTree h cur leaves k).insertLeaves (leaves.drop k) 0 =
        spillNewTreeFilled h cur leaves k from rfl]
    rw [set_concat_len]
    rw [List.length_set]
  · have hfz : (spillNewTreeFilled h cur leaves k).zeros =
        getZeroValueLevels h.treeDepth := by
      unfold spillNewTreeFilled
      rw [insertLeaves_zeros]
      rfl
    have hfd : (spillNewTreeFilled h cur leaves k).depth = h.treeDepth := by
      unfold spillNewTreeFilled
      rw [insertLeaves_depth]
      rfl
    have hroot2 : (spillNewTreeFilled h cur leaves k).rebuildSparseTree.root =
        (lastLevel (getZeroValueLevels h.treeDepth) h.treeDepth
          (leaves.drop k)).getD 0 Hash.undef := by
      rw [rebuilt_root, hfz, hfd, conj_d]
    rw [hroot2, conj_c, hprefix_root]
    refine spill_roots_ne h.treeDepth cur.zeros
      (cur.tree.getD 0 [] ++ leaves.take k) (leaves.drop k)
      (by rw [← conj_a]; exact conj_b) hdrop_ne
      (by rw [hdrop_len]; exact hm2) hL1_nu
      (fun hmm => hnu2 (List.drop_subset k leaves hmm))
      (by rw [hdrop_len]; exact hpad)

/-- A depth-1 pool whose current tree holds the single leaf 1 (capacity 2). -/
def c2pool : MerkleHelper :=
  match (MerkleHelper.new 1).insertLeaves [Hash.val 1] 0 with
  | Except.ok pr => pr.1
  | Except.error _ => MerkleHelper.new 1

/-- C2 counterexample: in the depth-1 pool holding leaf 1, spilling the batch
[zero leaf, leaf 1] makes the previous tree finalize to the hash of (1, zero),
and the new tree, after receiving its overflow leaf 1 and finalizing, has
exactly that same root — the finalized root does not differ from the inherited
placeholder, refuting the universal final clause of the claim. -/
theorem c2_counterexample :
    (c2pool.insertLeaves [zeroValue, Hash.val 1] 1).toOption.map
      (fun pr => (pr.1.trees.get? 1).map
        (fun t => decide (t.rebuildSparseTree.root = t.root))) =
      some (some true) := by
  decide

/-- C2 witness: the root-difference clause of the amended spill protocol at a
depth-1 pool holding leaf 1, spilling the batch [leaf 2, leaf 3]. -/
theorem c2_witness :
    (spillNewTreeFilled c2pool
        ((MerkleTree.createTree 0 1 none).insertLeaves [Hash.val 1] 0)
        [Hash.val 2, Hash.val 3] 1).rebuildSparseTree.root ≠
      (spillNewTree c2pool
        ((MerkleTree.createTree 0 1 none).insertLeaves [Hash.val 1] 0)
        [Hash.val 2, Hash.val 3] 1).root :=
  (c2_capacity_spill c2pool
    ((MerkleTree.createTree 0 1 none).insertLeaves [Hash.val 1] 0)
    [Hash.val 2, Hash.val 3] 1 1 (by decide) (by decide) (by decide) (by decide)
    (by decide) (by decide) (by decide) (by decide) (by decide) (by decide)
    (by decide) (by decide) (by decide) (by decide)).2.2.2.2.2
